import Mathlib

/-!
Verification of `src/libcore/str/pattern.rs`: the string-pattern matching
protocol (`SearchStep`, `Searcher`/`ReverseSearcher`, the classifier-driven
`CharEqSearcher` and the naive literal `StrSearcher`).

A haystack (and a literal needle) is modelled as a `List Char`; its UTF-8
byte representation (Rust's `str::as_bytes`) is computed explicitly, because
`StrSearcher` compares raw byte windows.  Byte offsets are `Nat`.
-/

set_option autoImplicit false

/-- Modelled from the spec: the UTF-8 encoded byte length of one character
(Rust's `char::len_utf8`, which is not part of `src/`). -/
def charWidth (c : Char) : Nat :=
  if c.toNat < 0x80 then 1
  else if c.toNat < 0x800 then 2
  else if c.toNat < 0x10000 then 3
  else 4

/-- Modelled from the spec: standard UTF-8 encoding of one character
(Rust's `char::encode_utf8`, not part of `src/`). -/
def utf8Encode (c : Char) : List Nat :=
  let n := c.toNat
  if n < 0x80 then [n]
  else if n < 0x800 then [0xC0 + n / 64, 0x80 + n % 64]
  else if n < 0x10000 then [0xE0 + n / 4096, 0x80 + (n / 64) % 64, 0x80 + n % 64]
  else [0xF0 + n / 262144, 0x80 + (n / 4096) % 64, 0x80 + (n / 64) % 64, 0x80 + n % 64]

/-- Byte length of a string (Rust's `str::len`). -/
def byteLen : List Char → Nat
  | [] => 0
  | c :: cs => charWidth c + byteLen cs

/-- UTF-8 bytes of a string (Rust's `str::as_bytes`). -/
def encodeStr : List Char → List Nat
  | [] => []
  | c :: cs => utf8Encode c ++ encodeStr cs

/-- Modelled from the spec: decode the character starting at byte offset `i`
(the character returned by `str::char_range_at(i)` / `s[i..].chars().next()`,
neither of which is part of `src/`).  Returns `none` when `i` is not a
character boundary strictly inside the string. -/
def charAt : List Char → Nat → Option Char
  | [], _ => none
  | c :: _, 0 => some c
  | c :: cs, i + 1 =>
    if charWidth c ≤ i + 1 then charAt cs (i + 1 - charWidth c) else none

/-- The character prefix occupying exactly the first `e` bytes, when `e` is a
character boundary (helper for `charBefore`). -/
def takeBytes : List Char → Nat → Option (List Char)
  | _, 0 => some []
  | [], _ + 1 => none
  | c :: cs, e + 1 =>
    if charWidth c ≤ e + 1 then (takeBytes cs (e + 1 - charWidth c)).map (c :: ·)
    else none

/-- Modelled from the spec: decode the character ending at byte offset `e`
(the character found by `str::char_range_at_reverse(e)` /
`s[..e].chars().rev().next()`, neither of which is part of `src/`). -/
def charBefore (s : List Char) (e : Nat) : Option Char :=
  (takeBytes s e).bind fun l => l.getLast?

/-- Result of calling `Searcher::next()` or `ReverseSearcher::next_back()`
(`SearchStep` in the source). -/
inductive SearchStep where
  | Match : Nat → Nat → SearchStep
  | Reject : Nat → Nat → SearchStep
  | Done : SearchStep
deriving DecidableEq, Repr

/-- The half-open byte range carried by a `Match` or `Reject` step. -/
def stepRange : SearchStep → Option (Nat × Nat)
  | .Match a b => some (a, b)
  | .Reject a b => some (a, b)
  | .Done => none

/-- The ranges of a list of emitted steps, in emission order. -/
def stepsRanges (l : List SearchStep) : List (Nat × Nat) :=
  l.filterMap stepRange

/-- `rangesChain a rs b` holds when the ranges `rs`, in order, tile the
interval `[a, b)` exactly: each range starts where the previous one ended,
the first starts at `a`, the last ends at `b`, and every range is ordered. -/
def rangesChain : Nat → List (Nat × Nat) → Nat → Bool
  | a, [], b => a == b
  | a, (x, y) :: rs, b => a == x && decide (x ≤ y) && rangesChain y rs b

/-- `i` is a UTF-8 character boundary of `s` (0, the total byte length, or
the start of an encoded character). -/
def IsBoundary (s : List Char) (i : Nat) : Prop :=
  ∃ pre suf, s = pre ++ suf ∧ i = byteLen pre

-- ------------------------------------------------------------------
-- CharEqSearcher: the classifier-driven searcher
-- ------------------------------------------------------------------

/-- The `CharEq` implementation for `char`: `*self == c`. -/
def charMatches (p : Char) : Char → Bool := fun c => p == c

/-- The `CharEq::only_ascii` implementation for `char`: `(*self as u32) < 128`. -/
def charOnlyAscii (p : Char) : Bool := p.toNat < 128

/-- The `CharEq` implementation for `&[char]`: any member matches. -/
def charSliceMatches (ps : List Char) : Char → Bool :=
  fun c => ps.any fun m => charMatches m c

/-- The `CharEq::only_ascii` implementation for `&[char]`: all members are. -/
def charSliceOnlyAscii (ps : List Char) : Bool :=
  ps.all fun m => charOnlyAscii m

/-- Modelled from the spec: the per-character double-ended cursor over the
haystack (`super::CharIndices`, not part of `src/`): the byte offset of the
first not-yet-visited character, plus the not-yet-visited characters. -/
structure CharIndices where
  offset : Nat
  chars : List Char

/-- The classifier-driven searcher (`CharEqSearcher` in the source).  The
classifier (`CharEq`) is modelled by its `matches` function, which covers all
three implementations: a single `char`, a `&[char]` set, and a predicate. -/
structure CharEqSearcher where
  char_eq : Char → Bool
  haystack : List Char
  char_indices : CharIndices
  ascii_only : Bool

/-- `CharEqPattern::into_searcher`. -/
def ceInto (char_eq : Char → Bool) (ascii : Bool) (haystack : List Char) :
    CharEqSearcher :=
  { char_eq := char_eq
    haystack := haystack
    char_indices := { offset := 0, chars := haystack }
    ascii_only := ascii }

/-- `Searcher::next` for `CharEqSearcher`: decode one character at the front
cursor, classify it, emit `Match`/`Reject` over exactly its bytes; `Done`
when no characters remain. -/
def ceNext (s : CharEqSearcher) : CharEqSearcher × SearchStep :=
  match s.char_indices.chars with
  | [] => (s, .Done)
  | c :: cs =>
    let i := s.char_indices.offset
    let w := charWidth c
    ({ s with char_indices := { offset := i + w, chars := cs } },
     if s.char_eq c then .Match i (i + w) else .Reject i (i + w))

/-- `ReverseSearcher::next_back` for `CharEqSearcher`: decode the last
not-yet-visited character, classify it, emit a step over exactly its bytes. -/
def ceNextBack (s : CharEqSearcher) : CharEqSearcher × SearchStep :=
  match s.char_indices.chars.getLast? with
  | none => (s, .Done)
  | some c =>
    let i := s.char_indices.offset + byteLen s.char_indices.chars.dropLast
    ({ s with char_indices := { offset := s.char_indices.offset,
                                chars := s.char_indices.chars.dropLast } },
     if s.char_eq c then .Match i (i + charWidth c)
     else .Reject i (i + charWidth c))

/-- Steps emitted by repeatedly calling `next()` (stopping at `Done`),
with explicit fuel. -/
def ceSteps : Nat → CharEqSearcher → List SearchStep
  | 0, _ => []
  | fuel + 1, s =>
    match ceNext s with
    | (_, .Done) => []
    | (s', st) => st :: ceSteps fuel s'

/-- Steps emitted by repeatedly calling `next_back()` (stopping at `Done`). -/
def ceBackSteps : Nat → CharEqSearcher → List SearchStep
  | 0, _ => []
  | fuel + 1, s =>
    match ceNextBack s with
    | (_, .Done) => []
    | (s', st) => st :: ceBackSteps fuel s'

/-- Iterate `next()` on the state only. -/
def ceRun : Nat → CharEqSearcher → CharEqSearcher
  | 0, s => s
  | n + 1, s => ceRun n (ceNext s).1

/-- Iterate `next_back()` on the state only. -/
def ceBackRun : Nat → CharEqSearcher → CharEqSearcher
  | 0, s => s
  | n + 1, s => ceBackRun n (ceNextBack s).1

/-- Iterate a mixed sequence of calls: `true` drives `next()`,
`false` drives `next_back()`. -/
def ceRunMix : List Bool → CharEqSearcher → CharEqSearcher
  | [], s => s
  | d :: ds, s => ceRunMix ds (if d then (ceNext s).1 else (ceNextBack s).1)

/-- `Searcher::next_match`: loop `next()`, skipping `Reject`, until a
`Match` or `Done` (fuel-bounded). -/
def ceNextMatch : Nat → CharEqSearcher → Option (Nat × Nat)
  | 0, _ => none
  | fuel + 1, s =>
    match ceNext s with
    | (_, .Match a b) => some (a, b)
    | (_, .Done) => none
    | (s', .Reject _ _) => ceNextMatch fuel s'

/-- `Pattern::is_contained_in` for a classifier pattern:
`into_searcher(haystack).next_match().is_some()`. -/
def ceIsContainedIn (char_eq : Char → Bool) (ascii : Bool)
    (haystack : List Char) : Bool :=
  (ceNextMatch (haystack.length + 1) (ceInto char_eq ascii haystack)).isSome

/-- `Pattern::is_prefix_of` for a classifier pattern: first `next()` is
`Match(0, _)`. -/
def ceIsPrefixOf (char_eq : Char → Bool) (ascii : Bool)
    (haystack : List Char) : Bool :=
  match (ceNext (ceInto char_eq ascii haystack)).2 with
  | .Match 0 _ => true
  | _ => false

/-- `Pattern::is_suffix_of` for a classifier pattern: first `next_back()` is
`Match(_, j)` with `j` the haystack byte length. -/
def ceIsSuffixOf (char_eq : Char → Bool) (ascii : Bool)
    (haystack : List Char) : Bool :=
  match (ceNextBack (ceInto char_eq ascii haystack)).2 with
  | .Match _ j => j == byteLen haystack
  | _ => false

-- ------------------------------------------------------------------
-- StrSearcher: the naive literal-substring searcher
-- ------------------------------------------------------------------

/-- The literal-substring searcher (`StrSearcher` in the source):
the still-unsearched window is `[start, end_)`, plus a `done` flag. -/
structure StrSearcher where
  haystack : List Char
  needle : List Char
  start : Nat
  end_ : Nat
  done : Bool
deriving Repr

/-- `<&str as Pattern>::into_searcher`. -/
def strInto (needle haystack : List Char) : StrSearcher :=
  { haystack := haystack
    needle := needle
    start := 0
    end_ := byteLen haystack
    done := false }

/-- The forward byte window compared against the needle:
`haystack.as_bytes()[start .. start + needle.len()]`. -/
def strWindowF (m : StrSearcher) : List Nat :=
  ((encodeStr m.haystack).drop m.start).take (byteLen m.needle)

/-- The backward byte window compared against the needle:
`haystack.as_bytes()[end - needle.len() .. end]`. -/
def strWindowB (m : StrSearcher) : List Nat :=
  ((encodeStr m.haystack).drop (m.end_ - byteLen m.needle)).take (byteLen m.needle)

/-- `Searcher::next` for `StrSearcher`: the shared `str_search_step` control
flow specialised with the forward closures.  The `none` fallbacks of the
character decoders are unreachable from states whose cursor sits on a
character boundary (there the source's `char_range_at` / `unwrap` would
panic); they are modelled as leaving the searcher unusable. -/
def strNext (m : StrSearcher) : StrSearcher × SearchStep :=
  if m.done then (m, .Done)
  else if byteLen m.needle = 0 ∧ m.start ≤ m.end_ then
    -- Case for needle == ""
    let m1 := if m.start = m.end_ then { m with done := true } else m
    let m2 :=
      if m1.done then m1
      else
        match charAt m1.haystack m1.start with
        | some c => { m1 with start := m1.start + charWidth c }
        | none => m1
    (m2, .Match m.start m.start)
  else if m.start + byteLen m.needle ≤ m.end_ then
    -- Case for needle != ""
    if strWindowF m = encodeStr m.needle then
      ({ m with start := m.start + byteLen m.needle },
       .Match m.start (m.start + byteLen m.needle))
    else
      -- Skip a char
      match charAt m.haystack m.start with
      | some c =>
        ({ m with start := m.start + charWidth c },
         .Reject m.start (m.start + charWidth c))
      | none => ({ m with done := true }, .Done)
  else if m.start < m.end_ then
    -- Remaining slice shorter than needle, reject it
    ({ m with done := true }, .Reject m.start m.end_)
  else
    ({ m with done := true }, .Done)

/-- `ReverseSearcher::next_back` for `StrSearcher`: the shared
`str_search_step` control flow specialised with the backward closures. -/
def strNextBack (m : StrSearcher) : StrSearcher × SearchStep :=
  if m.done then (m, .Done)
  else if byteLen m.needle = 0 ∧ m.start ≤ m.end_ then
    -- Case for needle == ""
    let m1 := if m.start = m.end_ then { m with done := true } else m
    let m2 :=
      if m1.done then m1
      else
        match charBefore m1.haystack m1.end_ with
        | some c => { m1 with end_ := m1.end_ - charWidth c }
        | none => m1
    (m2, .Match m.end_ m.end_)
  else if m.start + byteLen m.needle ≤ m.end_ then
    -- Case for needle != ""
    if strWindowB m = encodeStr m.needle then
      ({ m with end_ := m.end_ - byteLen m.needle },
       .Match (m.end_ - byteLen m.needle) m.end_)
    else
      -- Skip a char
      match charBefore m.haystack m.end_ with
      | some c =>
        ({ m with end_ := m.end_ - charWidth c },
         .Reject (m.end_ - charWidth c) m.end_)
      | none => ({ m with done := true }, .Done)
  else if m.start < m.end_ then
    -- Remaining slice shorter than needle, reject it
    ({ m with done := true }, .Reject m.start m.end_)
  else
    ({ m with done := true }, .Done)

/-- Steps emitted by repeatedly calling `next()` (stopping at `Done`). -/
def strSteps : Nat → StrSearcher → List SearchStep
  | 0, _ => []
  | fuel + 1, m =>
    match strNext m with
    | (_, .Done) => []
    | (m', st) => st :: strSteps fuel m'

/-- Steps emitted by repeatedly calling `next_back()` (stopping at `Done`). -/
def strBackSteps : Nat → StrSearcher → List SearchStep
  | 0, _ => []
  | fuel + 1, m =>
    match strNextBack m with
    | (_, .Done) => []
    | (m', st) => st :: strBackSteps fuel m'

/-- Iterate `next()` on the state only. -/
def strRun : Nat → StrSearcher → StrSearcher
  | 0, m => m
  | n + 1, m => strRun n (strNext m).1

/-- Iterate `next_back()` on the state only. -/
def strBackRun : Nat → StrSearcher → StrSearcher
  | 0, m => m
  | n + 1, m => strBackRun n (strNextBack m).1

/-- Iterate a mixed sequence of calls: `true` drives `next()`,
`false` drives `next_back()`. -/
def strRunMix : List Bool → StrSearcher → StrSearcher
  | [], m => m
  | d :: ds, m => strRunMix ds (if d then (strNext m).1 else (strNextBack m).1)

/-- `Searcher::next_match`: loop `next()`, skipping `Reject`, until a
`Match` or `Done` (fuel-bounded). -/
def strNextMatch : Nat → StrSearcher → Option (Nat × Nat)
  | 0, _ => none
  | fuel + 1, m =>
    match strNext m with
    | (_, .Match a b) => some (a, b)
    | (_, .Done) => none
    | (m', .Reject _ _) => strNextMatch fuel m'

/-- `Pattern::is_contained_in` for a literal pattern:
`into_searcher(haystack).next_match().is_some()`. -/
def strIsContainedIn (needle haystack : List Char) : Bool :=
  (strNextMatch (byteLen haystack + 2) (strInto needle haystack)).isSome

/-- `Pattern::is_prefix_of` for a literal pattern: first `next()` is
`Match(0, _)`. -/
def strIsPrefixOf (needle haystack : List Char) : Bool :=
  match (strNext (strInto needle haystack)).2 with
  | .Match 0 _ => true
  | _ => false

/-- `Pattern::is_suffix_of` for a literal pattern: first `next_back()` is
`Match(_, j)` with `j` the haystack byte length. -/
def strIsSuffixOf (needle haystack : List Char) : Bool :=
  match (strNextBack (strInto needle haystack)).2 with
  | .Match _ j => j == byteLen haystack
  | _ => false

/-- The full forward output of the classifier searcher, computed directly:
one step per character, starting at byte offset `i`. -/
def ceMap (f : Char → Bool) : Nat → List Char → List SearchStep
  | _, [] => []
  | i, c :: cs =>
    (if f c then SearchStep.Match i (i + charWidth c)
     else SearchStep.Reject i (i + charWidth c)) :: ceMap f (i + charWidth c) cs

/-- Forward well-formedness: the forward cursor sits on a character boundary
and `end_` is the haystack's byte length (the forward direction never moves
`end_` from its initial value). -/
def WFf (m : StrSearcher) : Prop :=
  (∃ pre suf, m.haystack = pre ++ suf ∧ m.start = byteLen pre) ∧
    m.end_ = byteLen m.haystack

/-- Backward well-formedness: the backward cursor sits on a character
boundary and `start` is 0 (the backward direction never moves `start`). -/
def WFb (m : StrSearcher) : Prop :=
  (∃ pre suf, m.haystack = pre ++ suf ∧ m.end_ = byteLen pre) ∧ m.start = 0

theorem char_toNat_inj {c d : Char} (h : c.toNat = d.toNat) : c = d :=
  Char.eq_of_val_eq (UInt32.ext h)

theorem utf8Encode_eq_one {c : Char} (h : c.toNat < 0x80) :
    utf8Encode c = [c.toNat] := by
  simp [utf8Encode, h]

theorem utf8Encode_eq_two {c : Char} (h1 : 0x80 ≤ c.toNat) (h2 : c.toNat < 0x800) :
    utf8Encode c = [0xC0 + c.toNat / 64, 0x80 + c.toNat % 64] := by
  simp [utf8Encode, Nat.not_lt.mpr h1, h2]

theorem utf8Encode_eq_three {c : Char} (h1 : 0x800 ≤ c.toNat) (h2 : c.toNat < 0x10000) :
    utf8Encode c = [0xE0 + c.toNat / 4096, 0x80 + (c.toNat / 64) % 64, 0x80 + c.toNat % 64] := by
  have : ¬ c.toNat < 0x80 := by omega
  simp [utf8Encode, this, Nat.not_lt.mpr h1, h2]

theorem utf8Encode_eq_four {c : Char} (h1 : 0x10000 ≤ c.toNat) :
    utf8Encode c = [0xF0 + c.toNat / 262144, 0x80 + (c.toNat / 4096) % 64,
      0x80 + (c.toNat / 64) % 64, 0x80 + c.toNat % 64] := by
  have haa : ¬ c.toNat < 0x80 := by omega
  have hb : ¬ c.toNat < 0x800 := by omega
  simp [utf8Encode, haa, hb, Nat.not_lt.mpr h1]

theorem charWidth_pos (c : Char) : 1 ≤ charWidth c := by
  unfold charWidth; split_ifs <;> omega

theorem utf8Encode_length (c : Char) : (utf8Encode c).length = charWidth c := by
  rcases Nat.lt_or_ge c.toNat 0x80 with h1 | h1
  · rw [utf8Encode_eq_one h1]; simp [charWidth, h1]
  rcases Nat.lt_or_ge c.toNat 0x800 with h2 | h2
  · rw [utf8Encode_eq_two h1 h2]; simp [charWidth, Nat.not_lt.mpr h1, h2]
  rcases Nat.lt_or_ge c.toNat 0x10000 with h3 | h3
  · rw [utf8Encode_eq_three h2 h3]
    have : ¬ c.toNat < 0x80 := by omega
    simp [charWidth, this, Nat.not_lt.mpr h2, h3]
  · rw [utf8Encode_eq_four h3]
    have ha : ¬ c.toNat < 0x80 := by omega
    have hb : ¬ c.toNat < 0x800 := by omega
    simp [charWidth, ha, hb, Nat.not_lt.mpr h3]

theorem utf8Encode_shape (c : Char) :
    ∃ b t, utf8Encode c = b :: t ∧ ¬(0x80 ≤ b ∧ b < 0xC0) ∧
      ∀ x ∈ t, 0x80 ≤ x ∧ x < 0xC0 := by
  rcases Nat.lt_or_ge c.toNat 0x80 with h1 | h1
  · exact ⟨c.toNat, [], utf8Encode_eq_one h1, by omega, by simp⟩
  rcases Nat.lt_or_ge c.toNat 0x800 with h2 | h2
  · refine ⟨0xC0 + c.toNat / 64, [0x80 + c.toNat % 64], utf8Encode_eq_two h1 h2, by omega, ?_⟩
    intro x hx; simp at hx; omega
  rcases Nat.lt_or_ge c.toNat 0x10000 with h3 | h3
  · refine ⟨0xE0 + c.toNat / 4096, [0x80 + (c.toNat / 64) % 64, 0x80 + c.toNat % 64],
      utf8Encode_eq_three h2 h3, by omega, ?_⟩
    intro x hx; simp at hx; rcases hx with hx | hx <;> omega
  · refine ⟨0xF0 + c.toNat / 262144, [0x80 + (c.toNat / 4096) % 64,
      0x80 + (c.toNat / 64) % 64, 0x80 + c.toNat % 64], utf8Encode_eq_four h3, by omega, ?_⟩
    intro x hx; simp at hx; rcases hx with hx | hx | hx <;> omega

theorem utf8Encode_det {c d : Char} {xs ys : List Nat}
    (h : utf8Encode c ++ xs = utf8Encode d ++ ys) : c = d ∧ xs = ys := by
  rcases Nat.lt_or_ge c.toNat 0x80 with hc1 | hc1
  · rw [utf8Encode_eq_one hc1] at h
    rcases Nat.lt_or_ge d.toNat 0x80 with hd1 | hd1
    · rw [utf8Encode_eq_one hd1] at h
      simp only [List.cons_append, List.nil_append, List.cons.injEq] at h
      exact ⟨char_toNat_inj h.1, h.2⟩
    rcases Nat.lt_or_ge d.toNat 0x800 with hd2 | hd2
    · rw [utf8Encode_eq_two hd1 hd2] at h
      simp only [List.cons_append, List.nil_append, List.cons.injEq] at h
      exact absurd h.1 (by omega)
    rcases Nat.lt_or_ge d.toNat 0x10000 with hd3 | hd3
    · rw [utf8Encode_eq_three hd2 hd3] at h
      simp only [List.cons_append, List.nil_append, List.cons.injEq] at h
      exact absurd h.1 (by omega)
    · rw [utf8Encode_eq_four hd3] at h
      simp only [List.cons_append, List.nil_append, List.cons.injEq] at h
      exact absurd h.1 (by omega)
  rcases Nat.lt_or_ge c.toNat 0x800 with hc2 | hc2
  · rw [utf8Encode_eq_two hc1 hc2] at h
    rcases Nat.lt_or_ge d.toNat 0x80 with hd1 | hd1
    · rw [utf8Encode_eq_one hd1] at h
      simp only [List.cons_append, List.nil_append, List.cons.injEq] at h
      exact absurd h.1 (by omega)
    rcases Nat.lt_or_ge d.toNat 0x800 with hd2 | hd2
    · rw [utf8Encode_eq_two hd1 hd2] at h
      simp only [List.cons_append, List.nil_append, List.cons.injEq] at h
      refine ⟨char_toNat_inj (by omega), h.2.2⟩
    rcases Nat.lt_or_ge d.toNat 0x10000 with hd3 | hd3
    · rw [utf8Encode_eq_three hd2 hd3] at h
      simp only [List.cons_append, List.nil_append, List.cons.injEq] at h
      exact absurd h.1 (by omega)
    · rw [utf8Encode_eq_four hd3] at h
      simp only [List.cons_append, List.nil_append, List.cons.injEq] at h
      exact absurd h.1 (by omega)
  rcases Nat.lt_or_ge c.toNat 0x10000 with hc3 | hc3
  · rw [utf8Encode_eq_three hc2 hc3] at h
    rcases Nat.lt_or_ge d.toNat 0x80 with hd1 | hd1
    · rw [utf8Encode_eq_one hd1] at h
      simp only [List.cons_append, List.nil_append, List.cons.injEq] at h
      exact absurd h.1 (by omega)
    rcases Nat.lt_or_ge d.toNat 0x800 with hd2 | hd2
    · rw [utf8Encode_eq_two hd1 hd2] at h
      simp only [List.cons_append, List.nil_append, List.cons.injEq] at h
      exact absurd h.1 (by omega)
    rcases Nat.lt_or_ge d.toNat 0x10000 with hd3 | hd3
    · rw [utf8Encode_eq_three hd2 hd3] at h
      simp only [List.cons_append, List.nil_append, List.cons.injEq] at h
      refine ⟨char_toNat_inj (by omega), h.2.2.2⟩
    · rw [utf8Encode_eq_four hd3] at h
      simp only [List.cons_append, List.nil_append, List.cons.injEq] at h
      exact absurd h.1 (by omega)
  · rw [utf8Encode_eq_four hc3] at h
    rcases Nat.lt_or_ge d.toNat 0x80 with hd1 | hd1
    · rw [utf8Encode_eq_one hd1] at h
      simp only [List.cons_append, List.nil_append, List.cons.injEq] at h
      exact absurd h.1 (by omega)
    rcases Nat.lt_or_ge d.toNat 0x800 with hd2 | hd2
    · rw [utf8Encode_eq_two hd1 hd2] at h
      simp only [List.cons_append, List.nil_append, List.cons.injEq] at h
      exact absurd h.1 (by omega)
    rcases Nat.lt_or_ge d.toNat 0x10000 with hd3 | hd3
    · rw [utf8Encode_eq_three hd2 hd3] at h
      simp only [List.cons_append, List.nil_append, List.cons.injEq] at h
      exact absurd h.1 (by omega)
    · rw [utf8Encode_eq_four hd3] at h
      simp only [List.cons_append, List.nil_append, List.cons.injEq] at h
      refine ⟨char_toNat_inj (by omega), h.2.2.2.2⟩

theorem byteLen_append (a b : List Char) :
    byteLen (a ++ b) = byteLen a + byteLen b := by
  induction a with
  | nil => simp [byteLen]
  | cons c cs ih => simp [byteLen, ih]; omega

theorem encodeStr_append (a b : List Char) :
    encodeStr (a ++ b) = encodeStr a ++ encodeStr b := by
  induction a with
  | nil => simp [encodeStr]
  | cons c cs ih => simp [encodeStr, ih]

theorem encodeStr_length (s : List Char) : (encodeStr s).length = byteLen s := by
  induction s with
  | nil => simp [encodeStr, byteLen]
  | cons c cs ih => simp [encodeStr, byteLen, ih, utf8Encode_length]

theorem byteLen_eq_zero {s : List Char} : byteLen s = 0 ↔ s = [] := by
  cases s with
  | nil => simp [byteLen]
  | cons c cs => simp [byteLen]; have := charWidth_pos c; omega

theorem encodeStr_eq_nil {s : List Char} : encodeStr s = [] ↔ s = [] := by
  constructor
  · intro h
    have := congrArg List.length h
    rw [encodeStr_length] at this
    exact byteLen_eq_zero.mp this
  · intro h; subst h; rfl

theorem charAt_cons_of {c : Char} {cs : List Char} {i : Nat}
    (h1 : 1 ≤ i) (h2 : charWidth c ≤ i) :
    charAt (c :: cs) i = charAt cs (i - charWidth c) := by
  cases i with
  | zero => omega
  | succ k => simp [charAt, h2]

theorem charAt_boundary (pre suf : List Char) :
    charAt (pre ++ suf) (byteLen pre) = suf.head? := by
  induction pre with
  | nil =>
    cases suf with
    | nil => simp [charAt, byteLen]
    | cons c cs => simp [charAt, byteLen]
  | cons c cs ih =>
    have hw := charWidth_pos c
    have h1 : 1 ≤ byteLen (c :: cs) := by simp [byteLen]; omega
    have h2 : charWidth c ≤ byteLen (c :: cs) := by simp [byteLen]
    rw [List.cons_append, show byteLen (c :: cs) = charWidth c + byteLen cs from rfl,
      charAt_cons_of (by omega) (by omega)]
    simpa using ih

theorem takeBytes_cons_of {c : Char} {cs : List Char} {e : Nat}
    (h1 : 1 ≤ e) (h2 : charWidth c ≤ e) :
    takeBytes (c :: cs) e = (takeBytes cs (e - charWidth c)).map (c :: ·) := by
  cases e with
  | zero => omega
  | succ k => simp [takeBytes, h2]

theorem takeBytes_boundary (pre suf : List Char) :
    takeBytes (pre ++ suf) (byteLen pre) = some pre := by
  induction pre with
  | nil => simp [takeBytes, byteLen]
  | cons c cs ih =>
    have hw := charWidth_pos c
    rw [List.cons_append, show byteLen (c :: cs) = charWidth c + byteLen cs from rfl,
      takeBytes_cons_of (by omega) (by omega)]
    simpa using ih

theorem charBefore_boundary (pre suf : List Char) :
    charBefore (pre ++ suf) (byteLen pre) = pre.getLast? := by
  simp [charBefore, takeBytes_boundary]

theorem encodeStr_take_det :
    ∀ (n s : List Char) (r : List Nat), encodeStr n ++ r = encodeStr s →
      ∃ t, s = n ++ t := by
  intro n
  induction n with
  | nil => intro s r _; exact ⟨s, rfl⟩
  | cons c n' ih =>
    intro s r h
    cases s with
    | nil =>
      exfalso
      simp only [encodeStr] at h
      have : utf8Encode c ++ (encodeStr n' ++ r) = [] := by simpa [List.append_assoc] using h
      obtain ⟨b, t, hbt, -, -⟩ := utf8Encode_shape c
      simp [hbt] at this
    | cons d s' =>
      simp only [encodeStr, List.append_assoc] at h
      obtain ⟨hcd, h2⟩ := utf8Encode_det h
      subst hcd
      obtain ⟨t, ht⟩ := ih s' r h2
      exact ⟨t, by simp [ht]⟩

theorem encodeStr_inj {a b : List Char} (h : encodeStr a = encodeStr b) : a = b := by
  obtain ⟨t, ht⟩ := encodeStr_take_det a b [] (by simpa using h)
  subst ht
  rw [encodeStr_append] at h
  have hl := congrArg List.length h
  simp only [List.length_append] at hl
  have h0 : (encodeStr t).length = 0 := by omega
  rw [encodeStr_eq_nil.mp (List.eq_nil_of_length_eq_zero h0), List.append_nil]

theorem encodeStr_drop_det :
    ∀ (p n : List Char) (r : List Nat), r ++ encodeStr n = encodeStr p →
      ∃ t, p = t ++ n ∧ r = encodeStr t := by
  intro p
  induction p with
  | nil =>
    intro n r h
    simp only [encodeStr] at h
    rcases List.append_eq_nil.mp h with ⟨hr, hn⟩
    exact ⟨[], by simp [encodeStr_eq_nil.mp hn], by simp [hr, encodeStr]⟩
  | cons c p' ih =>
    intro n r h
    cases r with
    | nil =>
      simp only [List.nil_append] at h
      exact ⟨[], by simp [encodeStr_inj h], rfl⟩
    | cons x r' =>
      obtain ⟨b, tc, hbt, hlead, hcont⟩ := utf8Encode_shape c
      simp only [encodeStr, hbt, List.cons_append, List.cons.injEq] at h
      obtain ⟨hxb, h2⟩ := h
      rcases List.append_eq_append_iff.mp h2 with ⟨w, hw1, hw2⟩ | ⟨w, hw1, hw2⟩
      · -- tc = r' ++ w, encodeStr n = w ++ encodeStr p'
        cases w with
        | nil =>
          simp only [List.append_nil] at hw1
          simp only [List.nil_append] at hw2
          refine ⟨[c], by simp [encodeStr_inj hw2], ?_⟩
          simp [encodeStr, hbt, hxb, hw1]
        | cons wh wt =>
          exfalso
          cases n with
          | nil =>
            simp only [encodeStr] at hw2
            exact absurd hw2.symm (by simp)
          | cons e n' =>
            obtain ⟨be, te, hbe, hleade, -⟩ := utf8Encode_shape e
            simp only [encodeStr, hbe, List.cons_append, List.cons.injEq] at hw2
            have hmem : wh ∈ tc := by
              rw [hw1]; exact List.mem_append_right _ (by simp)
            have := hcont wh hmem
            rw [hw2.1] at hleade
            exact hleade this
      · -- r' = tc ++ w, w ++ encodeStr n = encodeStr p'
        obtain ⟨t', ht1, ht2⟩ := ih n w hw2.symm
        refine ⟨c :: t', by simp [ht1], ?_⟩
        simp [encodeStr, hbt, hxb, hw1, ht2]

theorem ceNext_cons {f : Char → Bool} {hay : List Char} {i : Nat} {c : Char}
    {cs : List Char} {ascii : Bool} :
    ceNext ⟨f, hay, ⟨i, c :: cs⟩, ascii⟩ =
      (⟨f, hay, ⟨i + charWidth c, cs⟩, ascii⟩,
       if f c then .Match i (i + charWidth c) else .Reject i (i + charWidth c)) := rfl

theorem ceNext_nil {f : Char → Bool} {hay : List Char} {i : Nat} {ascii : Bool} :
    ceNext ⟨f, hay, ⟨i, []⟩, ascii⟩ = (⟨f, hay, ⟨i, []⟩, ascii⟩, .Done) := rfl

theorem ceNextBack_concat {f : Char → Bool} {hay : List Char} {i : Nat}
    {init : List Char} {c : Char} {ascii : Bool} :
    ceNextBack ⟨f, hay, ⟨i, init ++ [c]⟩, ascii⟩ =
      (⟨f, hay, ⟨i, init⟩, ascii⟩,
       if f c then .Match (i + byteLen init) (i + byteLen init + charWidth c)
       else .Reject (i + byteLen init) (i + byteLen init + charWidth c)) := by
  simp [ceNextBack, List.getLast?_concat, List.dropLast_concat, Nat.add_assoc]

theorem ceNextBack_nil {f : Char → Bool} {hay : List Char} {i : Nat} {ascii : Bool} :
    ceNextBack ⟨f, hay, ⟨i, []⟩, ascii⟩ = (⟨f, hay, ⟨i, []⟩, ascii⟩, .Done) := rfl

theorem ceMap_append_single (f : Char → Bool) (l : List Char) (c : Char) :
    ∀ i, ceMap f i (l ++ [c]) =
      ceMap f i l ++
        [if f c then SearchStep.Match (i + byteLen l) (i + byteLen l + charWidth c)
         else SearchStep.Reject (i + byteLen l) (i + byteLen l + charWidth c)] := by
  induction l with
  | nil => intro i; simp [ceMap, byteLen]
  | cons d ds ih =>
    intro i
    simp only [List.cons_append, ceMap, List.append_eq]
    rw [ih (i + charWidth d)]
    simp [byteLen, Nat.add_assoc]

theorem ceSteps_eq_ceMap (f : Char → Bool) (hay : List Char) (ascii : Bool) :
    ∀ (rest : List Char) (i fuel : Nat), rest.length ≤ fuel →
      ceSteps fuel ⟨f, hay, ⟨i, rest⟩, ascii⟩ = ceMap f i rest := by
  intro rest
  induction rest with
  | nil =>
    intro i fuel _
    cases fuel with
    | zero => rfl
    | succ k => simp [ceSteps, ceNext_nil, ceMap]
  | cons c cs ih =>
    intro i fuel hf
    cases fuel with
    | zero => simp at hf
    | succ k =>
      have hk : cs.length ≤ k := by simp at hf; omega
      cases hfc : f c with
      | true => simp [ceSteps, ceNext_cons, hfc, ceMap, ih (i + charWidth c) k hk]
      | false => simp [ceSteps, ceNext_cons, hfc, ceMap, ih (i + charWidth c) k hk]

theorem ceBackSteps_eq_ceMap (f : Char → Bool) (hay : List Char) (ascii : Bool) :
    ∀ (rest : List Char) (i fuel : Nat), rest.length ≤ fuel →
      ceBackSteps fuel ⟨f, hay, ⟨i, rest⟩, ascii⟩ = (ceMap f i rest).reverse := by
  intro rest
  induction rest using List.reverseRecOn with
  | nil =>
    intro i fuel _
    cases fuel with
    | zero => rfl
    | succ k => simp [ceBackSteps, ceNextBack_nil, ceMap]
  | append_singleton init c ih =>
    intro i fuel hf
    cases fuel with
    | zero => simp at hf
    | succ k =>
      have hk : init.length ≤ k := by simp at hf; omega
      cases hfc : f c with
      | true => simp [ceBackSteps, ceNextBack_concat, hfc, ceMap_append_single, ih i k hk]
      | false => simp [ceBackSteps, ceNextBack_concat, hfc, ceMap_append_single, ih i k hk]

theorem ceMap_chain (f : Char → Bool) :
    ∀ (rest : List Char) (i : Nat),
      rangesChain i (stepsRanges (ceMap f i rest)) (i + byteLen rest) = true := by
  intro rest
  induction rest with
  | nil => intro i; simp [ceMap, stepsRanges, rangesChain, byteLen]
  | cons c cs ih =>
    intro i
    have h := ih (i + charWidth c)
    cases hfc : f c with
    | true =>
      simp only [ceMap, hfc, if_true, stepsRanges, List.filterMap_cons, stepRange,
        byteLen, rangesChain]
      rw [← Nat.add_assoc]
      simp only [stepsRanges] at h
      simp [h]
    | false =>
      simp only [ceMap, hfc, if_false, stepsRanges, List.filterMap_cons, stepRange,
        byteLen, rangesChain]
      rw [← Nat.add_assoc]
      simp only [stepsRanges] at h
      simp [h]

theorem byteLen_concat (pre : List Char) (c : Char) :
    byteLen (pre ++ [c]) = byteLen pre + charWidth c := by
  simp [byteLen_append, byteLen]

theorem ceMap_bounds (f : Char → Bool) :
    ∀ (rest pre : List Char) (st : SearchStep) (a b : Nat),
      st ∈ ceMap f (byteLen pre) rest → stepRange st = some (a, b) →
      IsBoundary (pre ++ rest) a ∧ IsBoundary (pre ++ rest) b := by
  intro rest
  induction rest with
  | nil => intro pre st a b h _; simp [ceMap] at h
  | cons c cs ih =>
    intro pre st a b hmem hr
    simp only [ceMap, List.mem_cons] at hmem
    rcases hmem with h | h
    · subst h
      cases hfc : f c with
      | true =>
        simp only [hfc, if_true, stepRange, Option.some.injEq, Prod.mk.injEq] at hr
        obtain ⟨ha, hb⟩ := hr
        subst ha; subst hb
        exact ⟨⟨pre, c :: cs, rfl, rfl⟩,
          ⟨pre ++ [c], cs, by simp, (byteLen_concat pre c).symm⟩⟩
      | false =>
        simp only [hfc, Bool.false_eq_true, if_false, stepRange, Option.some.injEq,
          Prod.mk.injEq] at hr
        obtain ⟨ha, hb⟩ := hr
        subst ha; subst hb
        exact ⟨⟨pre, c :: cs, rfl, rfl⟩,
          ⟨pre ++ [c], cs, by simp, (byteLen_concat pre c).symm⟩⟩
    · have hmem' : st ∈ ceMap f (byteLen (pre ++ [c])) cs := by
        rw [byteLen_concat]; exact h
      have := ih (pre ++ [c]) st a b hmem' hr
      simpa [List.append_assoc] using this

theorem ceNextMatch_iff :
    ∀ (fuel : Nat) (s : CharEqSearcher), (ceNextMatch fuel s).isSome = true ↔
      ∃ a b, SearchStep.Match a b ∈ ceSteps fuel s := by
  intro fuel
  induction fuel with
  | zero => intro s; simp [ceNextMatch, ceSteps]
  | succ k ih =>
    intro s
    rcases hst : ceNext s with ⟨s', st⟩
    cases st with
    | Match a b =>
      simp [ceNextMatch, ceSteps, hst]
      exact ⟨a, b, Or.inl ⟨rfl, rfl⟩⟩
    | Reject a b => simp [ceNextMatch, ceSteps, hst, ih s']
    | Done => simp [ceNextMatch, ceSteps, hst]

theorem strNext_of_done {m : StrSearcher} (h : m.done = true) :
    strNext m = (m, .Done) := by
  simp [strNext, h]

theorem strNextBack_of_done {m : StrSearcher} (h : m.done = true) :
    strNextBack m = (m, .Done) := by
  simp [strNextBack, h]

theorem strNext_empty_conv {m : StrSearcher} (hd : m.done = false)
    (hn : byteLen m.needle = 0) (he : m.start = m.end_) :
    strNext m = ({ m with done := true }, .Match m.start m.start) := by
  simp [strNext, hd, hn, he]

theorem strNext_empty_adv {m : StrSearcher} {c : Char} (hd : m.done = false)
    (hn : byteLen m.needle = 0) (hlt : m.start < m.end_)
    (hAt : charAt m.haystack m.start = some c) :
    strNext m = ({ m with start := m.start + charWidth c }, .Match m.start m.start) := by
  have hne : ¬ m.start = m.end_ := Nat.ne_of_lt hlt
  simp [strNext, hd, hn, Nat.le_of_lt hlt, hne, hAt]

theorem strNext_found {m : StrSearcher} (hd : m.done = false) (hn : m.needle ≠ [])
    (hle : m.start + byteLen m.needle ≤ m.end_)
    (hw : strWindowF m = encodeStr m.needle) :
    strNext m = ({ m with start := m.start + byteLen m.needle },
      .Match m.start (m.start + byteLen m.needle)) := by
  have hn0 : ¬ byteLen m.needle = 0 := fun h => hn (byteLen_eq_zero.mp h)
  simp [strNext, hd, hn0, hle, hw]

theorem strNext_skip {m : StrSearcher} {c : Char} (hd : m.done = false)
    (hn : m.needle ≠ []) (hle : m.start + byteLen m.needle ≤ m.end_)
    (hw : strWindowF m ≠ encodeStr m.needle)
    (hAt : charAt m.haystack m.start = some c) :
    strNext m = ({ m with start := m.start + charWidth c },
      .Reject m.start (m.start + charWidth c)) := by
  have hn0 : ¬ byteLen m.needle = 0 := fun h => hn (byteLen_eq_zero.mp h)
  simp [strNext, hd, hn0, hle, hw, hAt]

theorem strNext_short {m : StrSearcher} (hd : m.done = false) (hn : m.needle ≠ [])
    (hgt : m.end_ < m.start + byteLen m.needle) (hlt : m.start < m.end_) :
    strNext m = ({ m with done := true }, .Reject m.start m.end_) := by
  have hn0 : ¬ byteLen m.needle = 0 := fun h => hn (byteLen_eq_zero.mp h)
  have h1 : ¬ (byteLen m.needle = 0 ∧ m.start ≤ m.end_) := fun h => hn0 h.1
  simp [strNext, hd, h1, Nat.not_le.mpr hgt, hlt]

theorem strNext_exhausted {m : StrSearcher} (hd : m.done = false)
    (hn : m.needle ≠ []) (hge : m.end_ ≤ m.start) :
    strNext m = ({ m with done := true }, .Done) := by
  have hn0 : ¬ byteLen m.needle = 0 := fun h => hn (byteLen_eq_zero.mp h)
  have h1 : ¬ (byteLen m.needle = 0 ∧ m.start ≤ m.end_) := fun h => hn0 h.1
  have hw := charWidth_pos
  have h2 : ¬ (m.start + byteLen m.needle ≤ m.end_) := by
    have : 1 ≤ byteLen m.needle := by
      rcases Nat.eq_zero_or_pos (byteLen m.needle) with h | h
      · exact absurd h hn0
      · exact h
    omega
  simp [strNext, hd, h1, h2, Nat.not_lt.mpr hge]

theorem strNextBack_empty_conv {m : StrSearcher} (hd : m.done = false)
    (hn : byteLen m.needle = 0) (he : m.start = m.end_) :
    strNextBack m = ({ m with done := true }, .Match m.end_ m.end_) := by
  simp [strNextBack, hd, hn, he]

theorem strNextBack_empty_adv {m : StrSearcher} {c : Char} (hd : m.done = false)
    (hn : byteLen m.needle = 0) (hlt : m.start < m.end_)
    (hAt : charBefore m.haystack m.end_ = some c) :
    strNextBack m = ({ m with end_ := m.end_ - charWidth c },
      .Match m.end_ m.end_) := by
  have hne : ¬ m.start = m.end_ := Nat.ne_of_lt hlt
  simp [strNextBack, hd, hn, Nat.le_of_lt hlt, hne, hAt]

theorem strNextBack_found {m : StrSearcher} (hd : m.done = false)
    (hn : m.needle ≠ []) (hle : m.start + byteLen m.needle ≤ m.end_)
    (hw : strWindowB m = encodeStr m.needle) :
    strNextBack m = ({ m with end_ := m.end_ - byteLen m.needle },
      .Match (m.end_ - byteLen m.needle) m.end_) := by
  have hn0 : ¬ byteLen m.needle = 0 := fun h => hn (byteLen_eq_zero.mp h)
  simp [strNextBack, hd, hn0, hle, hw]

theorem strNextBack_skip {m : StrSearcher} {c : Char} (hd : m.done = false)
    (hn : m.needle ≠ []) (hle : m.start + byteLen m.needle ≤ m.end_)
    (hw : strWindowB m ≠ encodeStr m.needle)
    (hAt : charBefore m.haystack m.end_ = some c) :
    strNextBack m = ({ m with end_ := m.end_ - charWidth c },
      .Reject (m.end_ - charWidth c) m.end_) := by
  have hn0 : ¬ byteLen m.needle = 0 := fun h => hn (byteLen_eq_zero.mp h)
  simp [strNextBack, hd, hn0, hle, hw, hAt]

theorem strNextBack_short {m : StrSearcher} (hd : m.done = false)
    (hn : m.needle ≠ []) (hgt : m.end_ < m.start + byteLen m.needle)
    (hlt : m.start < m.end_) :
    strNextBack m = ({ m with done := true }, .Reject m.start m.end_) := by
  have hn0 : ¬ byteLen m.needle = 0 := fun h => hn (byteLen_eq_zero.mp h)
  have h1 : ¬ (byteLen m.needle = 0 ∧ m.start ≤ m.end_) := fun h => hn0 h.1
  simp [strNextBack, hd, h1, Nat.not_le.mpr hgt, hlt]

theorem strNextBack_exhausted {m : StrSearcher} (hd : m.done = false)
    (hn : m.needle ≠ []) (hge : m.end_ ≤ m.start) :
    strNextBack m = ({ m with done := true }, .Done) := by
  have hn0 : ¬ byteLen m.needle = 0 := fun h => hn (byteLen_eq_zero.mp h)
  have h1 : ¬ (byteLen m.needle = 0 ∧ m.start ≤ m.end_) := fun h => hn0 h.1
  have h2 : ¬ (m.start + byteLen m.needle ≤ m.end_) := by
    have : 1 ≤ byteLen m.needle := by
      rcases Nat.eq_zero_or_pos (byteLen m.needle) with h | h
      · exact absurd h hn0
      · exact h
    omega
  simp [strNextBack, hd, h1, h2, Nat.not_lt.mpr hge]

theorem byteLen_pos_of_ne_nil {s : List Char} (h : s ≠ []) : 1 ≤ byteLen s := by
  cases s with
  | nil => exact absurd rfl h
  | cons c cs => have := charWidth_pos c; simp [byteLen]; omega

theorem strWindowF_eq {m : StrSearcher} {pre suf : List Char}
    (hh : m.haystack = pre ++ suf) (hs : m.start = byteLen pre) :
    strWindowF m = (encodeStr suf).take (byteLen m.needle) := by
  rw [strWindowF, hh, hs, encodeStr_append, ← encodeStr_length pre, List.drop_left]

theorem window_match_fwd {m : StrSearcher} {pre suf : List Char}
    (hh : m.haystack = pre ++ suf) (hs : m.start = byteLen pre)
    (hw : strWindowF m = encodeStr m.needle) :
    ∃ t, suf = m.needle ++ t := by
  rw [strWindowF_eq hh hs] at hw
  have h2 : encodeStr m.needle ++ (encodeStr suf).drop (byteLen m.needle) = encodeStr suf := by
    rw [← hw]; exact List.take_append_drop _ _
  exact encodeStr_take_det _ _ _ h2

theorem strWindowB_eq {m : StrSearcher} {pre suf : List Char}
    (hh : m.haystack = pre ++ suf) (he : m.end_ = byteLen pre)
    (hk : byteLen m.needle ≤ m.end_) :
    strWindowB m = (encodeStr pre).drop (m.end_ - byteLen m.needle) := by
  have hlen : (encodeStr pre).length = byteLen pre := encodeStr_length pre
  have h1 : m.end_ - byteLen m.needle ≤ (encodeStr pre).length := by omega
  rw [strWindowB, hh, encodeStr_append, List.drop_append_of_le_length h1]
  have h2 : ((encodeStr pre).drop (m.end_ - byteLen m.needle)).length = byteLen m.needle := by
    simp [hlen]; omega
  exact List.take_left' h2

theorem window_match_bwd {m : StrSearcher} {pre suf : List Char}
    (hh : m.haystack = pre ++ suf) (he : m.end_ = byteLen pre)
    (hk : byteLen m.needle ≤ m.end_)
    (hw : strWindowB m = encodeStr m.needle) :
    ∃ t, pre = t ++ m.needle ∧ m.end_ - byteLen m.needle = byteLen t := by
  rw [strWindowB_eq hh he hk] at hw
  have h2 : (encodeStr pre).take (m.end_ - byteLen m.needle) ++ encodeStr m.needle
      = encodeStr pre := by
    rw [← hw]; exact List.take_append_drop _ _
  obtain ⟨t, ht1, ht2⟩ := encodeStr_drop_det pre m.needle _ h2
  refine ⟨t, ht1, ?_⟩
  have hl := congrArg List.length ht2
  have hlen : (encodeStr pre).length = byteLen pre := encodeStr_length pre
  simp only [List.length_take, encodeStr_length] at hl
  omega

theorem WFf_start_le {m : StrSearcher} (hw : WFf m) : m.start ≤ m.end_ := by
  obtain ⟨⟨pre, suf, hh, hs⟩, he⟩ := hw
  rw [hs, he, hh, byteLen_append]
  omega

theorem WFb_start_le {m : StrSearcher} (hw : WFb m) : m.start ≤ m.end_ := by
  obtain ⟨⟨pre, suf, hh, he⟩, hs⟩ := hw
  omega

theorem strNext_cases {m : StrSearcher} (hw : WFf m) (hd : m.done = false) :
    (m.needle ≠ [] ∧ m.start = m.end_ ∧
      strNext m = ({ m with done := true }, .Done))
    ∨ (m.needle = [] ∧ m.start = m.end_ ∧
      strNext m = ({ m with done := true }, .Match m.start m.start))
    ∨ (∃ c, m.needle = [] ∧ m.start < m.end_ ∧ 1 ≤ charWidth c ∧
      strNext m = ({ m with start := m.start + charWidth c }, .Match m.start m.start) ∧
      WFf { m with start := m.start + charWidth c })
    ∨ (m.needle ≠ [] ∧ 1 ≤ byteLen m.needle ∧ m.start + byteLen m.needle ≤ m.end_ ∧
      strNext m = ({ m with start := m.start + byteLen m.needle },
        .Match m.start (m.start + byteLen m.needle)) ∧
      WFf { m with start := m.start + byteLen m.needle })
    ∨ (∃ c, m.needle ≠ [] ∧ m.start < m.end_ ∧ 1 ≤ charWidth c ∧
      m.start + byteLen m.needle ≤ m.end_ ∧
      strNext m = ({ m with start := m.start + charWidth c },
        .Reject m.start (m.start + charWidth c)) ∧
      WFf { m with start := m.start + charWidth c })
    ∨ (m.needle ≠ [] ∧ m.start < m.end_ ∧ m.end_ < m.start + byteLen m.needle ∧
      strNext m = ({ m with done := true }, .Reject m.start m.end_)) := by
  obtain ⟨⟨pre, suf, hh, hs⟩, he⟩ := hw
  have hle0 : m.start ≤ m.end_ := WFf_start_le ⟨⟨pre, suf, hh, hs⟩, he⟩
  by_cases hn : m.needle = []
  · have hn0 : byteLen m.needle = 0 := by rw [hn]; rfl
    rcases Nat.eq_or_lt_of_le hle0 with heq | hlt
    · exact Or.inr (Or.inl ⟨hn, heq, strNext_empty_conv hd hn0 heq⟩)
    · have hsufne : suf ≠ [] := by
        intro hsuf
        rw [hsuf, List.append_nil] at hh
        rw [hh] at he
        omega
      obtain ⟨c, rest, hcr⟩ := List.exists_cons_of_ne_nil hsufne
      have hAt : charAt m.haystack m.start = some c := by
        rw [hh, hs, charAt_boundary, hcr]; rfl
      refine Or.inr (Or.inr (Or.inl ⟨c, hn, hlt, charWidth_pos c,
        strNext_empty_adv hd hn0 hlt hAt, ⟨⟨pre ++ [c], rest, ?_, ?_⟩, he⟩⟩))
      · simp [hh, hcr]
      · simp [byteLen_concat, hs]
  · have hn1 : 1 ≤ byteLen m.needle := byteLen_pos_of_ne_nil hn
    by_cases hle : m.start + byteLen m.needle ≤ m.end_
    · by_cases hwin : strWindowF m = encodeStr m.needle
      · obtain ⟨t, ht⟩ := window_match_fwd hh hs hwin
        refine Or.inr (Or.inr (Or.inr (Or.inl ⟨hn, hn1, hle,
          strNext_found hd hn hle hwin, ⟨⟨pre ++ m.needle, t, ?_, ?_⟩, he⟩⟩)))
        · rw [hh, ht, List.append_assoc]
        · simp [byteLen_append, hs]
      · have hlt : m.start < m.end_ := by omega
        have hsufne : suf ≠ [] := by
          intro hsuf
          rw [hsuf, List.append_nil] at hh
          rw [hh] at he
          omega
        obtain ⟨c, rest, hcr⟩ := List.exists_cons_of_ne_nil hsufne
        have hAt : charAt m.haystack m.start = some c := by
          rw [hh, hs, charAt_boundary, hcr]; rfl
        refine Or.inr (Or.inr (Or.inr (Or.inr (Or.inl ⟨c, hn, hlt, charWidth_pos c, hle,
          strNext_skip hd hn hle hwin hAt, ⟨⟨pre ++ [c], rest, ?_, ?_⟩, he⟩⟩))))
        · simp [hh, hcr]
        · simp [byteLen_concat, hs]
    · by_cases hlt : m.start < m.end_
      · exact Or.inr (Or.inr (Or.inr (Or.inr (Or.inr ⟨hn, hlt, Nat.not_le.mp hle,
          strNext_short hd hn (Nat.not_le.mp hle) hlt⟩))))
      · have heq : m.start = m.end_ := by omega
        exact Or.inl ⟨hn, heq, strNext_exhausted hd hn (Nat.not_lt.mp hlt)⟩

theorem strNextBack_cases {m : StrSearcher} (hw : WFb m) (hd : m.done = false) :
    (m.needle ≠ [] ∧ m.start = m.end_ ∧
      strNextBack m = ({ m with done := true }, .Done))
    ∨ (m.needle = [] ∧ m.start = m.end_ ∧
      strNextBack m = ({ m with done := true }, .Match m.end_ m.end_))
    ∨ (∃ c, m.needle = [] ∧ m.start < m.end_ ∧ 1 ≤ charWidth c ∧ charWidth c ≤ m.end_ ∧
      strNextBack m = ({ m with end_ := m.end_ - charWidth c }, .Match m.end_ m.end_) ∧
      WFb { m with end_ := m.end_ - charWidth c })
    ∨ (m.needle ≠ [] ∧ 1 ≤ byteLen m.needle ∧ m.start + byteLen m.needle ≤ m.end_ ∧
      strNextBack m = ({ m with end_ := m.end_ - byteLen m.needle },
        .Match (m.end_ - byteLen m.needle) m.end_) ∧
      WFb { m with end_ := m.end_ - byteLen m.needle })
    ∨ (∃ c, m.needle ≠ [] ∧ m.start < m.end_ ∧ 1 ≤ charWidth c ∧ charWidth c ≤ m.end_ ∧
      m.start + byteLen m.needle ≤ m.end_ ∧
      strNextBack m = ({ m with end_ := m.end_ - charWidth c },
        .Reject (m.end_ - charWidth c) m.end_) ∧
      WFb { m with end_ := m.end_ - charWidth c })
    ∨ (m.needle ≠ [] ∧ m.start < m.end_ ∧ m.end_ < m.start + byteLen m.needle ∧
      strNextBack m = ({ m with done := true }, .Reject m.start m.end_)) := by
  obtain ⟨⟨pre, suf, hh, hepre⟩, hs⟩ := hw
  have hle0 : m.start ≤ m.end_ := by omega
  by_cases hn : m.needle = []
  · have hn0 : byteLen m.needle = 0 := by rw [hn]; rfl
    rcases Nat.eq_or_lt_of_le hle0 with heq | hlt
    · exact Or.inr (Or.inl ⟨hn, heq, strNextBack_empty_conv hd hn0 heq⟩)
    · have hprene : pre ≠ [] := by
        intro hp
        rw [hp] at hepre
        simp [byteLen] at hepre
        omega
      rcases List.eq_nil_or_concat pre with hp | ⟨pre', c, hp⟩
      · exact absurd hp hprene
      rw [List.concat_eq_append] at hp
      have hAt : charBefore m.haystack m.end_ = some c := by
        rw [hh, hepre, charBefore_boundary, hp, List.getLast?_concat]
      have hbl : m.end_ = byteLen pre' + charWidth c := by
        rw [hepre, hp, byteLen_concat]
      refine Or.inr (Or.inr (Or.inl ⟨c, hn, hlt, charWidth_pos c, by omega,
        strNextBack_empty_adv hd hn0 hlt hAt, ⟨⟨pre', c :: suf, ?_, ?_⟩, hs⟩⟩))
      · rw [hh, hp, List.append_assoc]; rfl
      · simp; omega
  · have hn1 : 1 ≤ byteLen m.needle := byteLen_pos_of_ne_nil hn
    by_cases hle : m.start + byteLen m.needle ≤ m.end_
    · have hk : byteLen m.needle ≤ m.end_ := by omega
      by_cases hwin : strWindowB m = encodeStr m.needle
      · obtain ⟨t, ht1, ht2⟩ := window_match_bwd hh hepre hk hwin
        refine Or.inr (Or.inr (Or.inr (Or.inl ⟨hn, hn1, hle,
          strNextBack_found hd hn hle hwin, ⟨⟨t, m.needle ++ suf, ?_, ?_⟩, hs⟩⟩)))
        · rw [hh, ht1, List.append_assoc]
        · simpa using ht2
      · have hlt : m.start < m.end_ := by omega
        have hprene : pre ≠ [] := by
          intro hp
          rw [hp] at hepre
          simp [byteLen] at hepre
          omega
        rcases List.eq_nil_or_concat pre with hp | ⟨pre', c, hp⟩
        · exact absurd hp hprene
        rw [List.concat_eq_append] at hp
        have hAt : charBefore m.haystack m.end_ = some c := by
          rw [hh, hepre, charBefore_boundary, hp, List.getLast?_concat]
        have hbl : m.end_ = byteLen pre' + charWidth c := by
          rw [hepre, hp, byteLen_concat]
        refine Or.inr (Or.inr (Or.inr (Or.inr (Or.inl ⟨c, hn, hlt, charWidth_pos c,
          by omega, hle, strNextBack_skip hd hn hle hwin hAt,
          ⟨⟨pre', c :: suf, ?_, ?_⟩, hs⟩⟩))))
        · rw [hh, hp, List.append_assoc]; rfl
        · simp; omega
    · by_cases hlt : m.start < m.end_
      · exact Or.inr (Or.inr (Or.inr (Or.inr (Or.inr ⟨hn, hlt, Nat.not_le.mp hle,
          strNextBack_short hd hn (Nat.not_le.mp hle) hlt⟩))))
      · have heq : m.start = m.end_ := by omega
        exact Or.inl ⟨hn, heq, strNextBack_exhausted hd hn (Nat.not_lt.mp hlt)⟩

theorem strSteps_of_done {m : StrSearcher} (h : m.done = true) :
    ∀ fuel, strSteps fuel m = [] := by
  intro fuel
  cases fuel with
  | zero => rfl
  | succ k => simp [strSteps, strNext_of_done h]

theorem strBackSteps_of_done {m : StrSearcher} (h : m.done = true) :
    ∀ fuel, strBackSteps fuel m = [] := by
  intro fuel
  cases fuel with
  | zero => rfl
  | succ k => simp [strBackSteps, strNextBack_of_done h]

theorem strSteps_chain :
    ∀ (fuel : Nat) (m : StrSearcher), WFf m → m.needle ≠ [] → m.done = false →
      m.end_ - m.start + 1 ≤ fuel →
      rangesChain m.start (stepsRanges (strSteps fuel m)) m.end_ = true := by
  intro fuel
  induction fuel with
  | zero => intro m _ _ _ h; omega
  | succ k ih =>
    intro m hw hn hd hfuel
    rcases strNext_cases hw hd with
      ⟨-, heq, hstep⟩ | ⟨hne, -, -⟩ | ⟨c, hne, -⟩ |
      ⟨-, h1, hle, hstep, hwf'⟩ | ⟨c, -, hlt, hwc, hle, hstep, hwf'⟩ |
      ⟨-, hlt, hgt, hstep⟩
    · simp only [strSteps, hstep]
      simp [stepsRanges, rangesChain, heq]
    · exact absurd hne hn
    · exact absurd hne hn
    · simp only [strSteps, hstep]
      have hih := ih { m with start := m.start + byteLen m.needle } hwf' hn hd (by simp; omega)
      simp only [stepsRanges, List.filterMap_cons, stepRange, rangesChain]
      simp [stepsRanges] at hih
      simp [hih, Nat.le_add_right]
    · simp only [strSteps, hstep]
      have hih := ih { m with start := m.start + charWidth c } hwf' hn hd (by simp; omega)
      simp only [stepsRanges, List.filterMap_cons, stepRange, rangesChain]
      simp [stepsRanges] at hih
      simp [hih, Nat.le_add_right]
    · simp only [strSteps, hstep]
      rw [strSteps_of_done (by simp) k]
      simp [stepsRanges, rangesChain]
      omega

theorem rangesChain_append_single :
    ∀ (rs : List (Nat × Nat)) (a b x y : Nat),
      rangesChain a (rs ++ [(x, y)]) b =
        (rangesChain a rs x && decide (x ≤ y) && (y == b)) := by
  intro rs
  induction rs with
  | nil =>
    intro a b x y
    simp [rangesChain]
  | cons r rs' ih =>
    intro a b x y
    rcases r with ⟨u, v⟩
    simp only [List.cons_append, rangesChain, List.append_eq, ih, Bool.and_assoc]

theorem strBackSteps_chain :
    ∀ (fuel : Nat) (m : StrSearcher), WFb m → m.needle ≠ [] → m.done = false →
      m.end_ - m.start + 1 ≤ fuel →
      rangesChain m.start (stepsRanges (strBackSteps fuel m)).reverse m.end_ = true := by
  intro fuel
  induction fuel with
  | zero => intro m _ _ _ h; omega
  | succ k ih =>
    intro m hw hn hd hfuel
    rcases strNextBack_cases hw hd with
      ⟨-, heq, hstep⟩ | ⟨hne, -, -⟩ | ⟨c, hne, -⟩ |
      ⟨-, h1, hle, hstep, hwf'⟩ | ⟨c, -, hlt, hwc, hwc2, hle, hstep, hwf'⟩ |
      ⟨-, hlt, hgt, hstep⟩
    · simp only [strBackSteps, hstep]
      simp [stepsRanges, rangesChain, heq]
    · exact absurd hne hn
    · exact absurd hne hn
    · simp only [strBackSteps, hstep]
      have hih := ih { m with end_ := m.end_ - byteLen m.needle } hwf' hn hd (by simp; omega)
      simp only [stepsRanges, List.filterMap_cons, stepRange, List.reverse_cons,
        rangesChain_append_single]
      simp [stepsRanges] at hih
      simp [hih]
    · simp only [strBackSteps, hstep]
      have hih := ih { m with end_ := m.end_ - charWidth c } hwf' hn hd (by simp; omega)
      simp only [stepsRanges, List.filterMap_cons, stepRange, List.reverse_cons,
        rangesChain_append_single]
      simp [stepsRanges] at hih
      simp [hih]
    · simp only [strBackSteps, hstep]
      rw [strBackSteps_of_done (by simp) k]
      simp [stepsRanges, rangesChain]
      omega

theorem strSteps_bounds :
    ∀ (fuel : Nat) (m : StrSearcher), WFf m →
      ∀ st ∈ strSteps fuel m, ∀ a b, stepRange st = some (a, b) →
        IsBoundary m.haystack a ∧ IsBoundary m.haystack b := by
  intro fuel
  induction fuel with
  | zero => intro m _ st hst; simp [strSteps] at hst
  | succ k ih =>
    intro m hw st hst a b hr
    by_cases hd : m.done = true
    · rw [strSteps_of_done hd] at hst; simp at hst
    have hd' : m.done = false := by simpa using hd
    obtain ⟨⟨pre, suf, hh, hs⟩, he⟩ := hw
    have hbs : IsBoundary m.haystack m.start := ⟨pre, suf, hh, hs⟩
    have hbe : IsBoundary m.haystack m.end_ := ⟨m.haystack, [], by simp, by rw [he]⟩
    rcases strNext_cases ⟨⟨pre, suf, hh, hs⟩, he⟩ hd' with
      ⟨-, -, hstep⟩ | ⟨-, -, hstep⟩ | ⟨c, -, -, -, hstep, hwf'⟩ |
      ⟨-, -, -, hstep, hwf'⟩ | ⟨c, -, -, -, -, hstep, hwf'⟩ |
      ⟨-, -, -, hstep⟩
    · simp only [strSteps, hstep] at hst
      simp at hst
    · simp only [strSteps, hstep] at hst
      rw [strSteps_of_done (by simp) k] at hst
      simp at hst
      subst hst
      simp only [stepRange, Option.some.injEq, Prod.mk.injEq] at hr
      exact ⟨hr.1 ▸ hbs, hr.2 ▸ hbs⟩
    · simp only [strSteps, hstep] at hst
      rcases List.mem_cons.mp hst with h1 | h1
      · subst h1
        simp only [stepRange, Option.some.injEq, Prod.mk.injEq] at hr
        exact ⟨hr.1 ▸ hbs, hr.2 ▸ hbs⟩
      · exact ih _ hwf' st h1 a b hr
    · simp only [strSteps, hstep] at hst
      rcases List.mem_cons.mp hst with h1 | h1
      · subst h1
        simp only [stepRange, Option.some.injEq, Prod.mk.injEq] at hr
        exact ⟨hr.1 ▸ hbs, hr.2 ▸ hwf'.1⟩
      · exact ih _ hwf' st h1 a b hr
    · simp only [strSteps, hstep] at hst
      rcases List.mem_cons.mp hst with h1 | h1
      · subst h1
        simp only [stepRange, Option.some.injEq, Prod.mk.injEq] at hr
        exact ⟨hr.1 ▸ hbs, hr.2 ▸ hwf'.1⟩
      · exact ih _ hwf' st h1 a b hr
    · simp only [strSteps, hstep] at hst
      rw [strSteps_of_done (by simp) k] at hst
      simp at hst
      subst hst
      simp only [stepRange, Option.some.injEq, Prod.mk.injEq] at hr
      exact ⟨hr.1 ▸ hbs, hr.2 ▸ hbe⟩

theorem strBackSteps_bounds :
    ∀ (fuel : Nat) (m : StrSearcher), WFb m →
      ∀ st ∈ strBackSteps fuel m, ∀ a b, stepRange st = some (a, b) →
        IsBoundary m.haystack a ∧ IsBoundary m.haystack b := by
  intro fuel
  induction fuel with
  | zero => intro m _ st hst; simp [strBackSteps] at hst
  | succ k ih =>
    intro m hw st hst a b hr
    by_cases hd : m.done = true
    · rw [strBackSteps_of_done hd] at hst; simp at hst
    have hd' : m.done = false := by simpa using hd
    obtain ⟨⟨pre, suf, hh, hepre⟩, hs⟩ := hw
    have hbe : IsBoundary m.haystack m.end_ := ⟨pre, suf, hh, hepre⟩
    have hbs : IsBoundary m.haystack m.start := ⟨[], m.haystack, by simp, by rw [hs]; rfl⟩
    rcases strNextBack_cases ⟨⟨pre, suf, hh, hepre⟩, hs⟩ hd' with
      ⟨-, -, hstep⟩ | ⟨-, -, hstep⟩ | ⟨c, -, -, -, -, hstep, hwf'⟩ |
      ⟨-, -, -, hstep, hwf'⟩ | ⟨c, -, -, -, -, -, hstep, hwf'⟩ |
      ⟨-, -, -, hstep⟩
    · simp only [strBackSteps, hstep] at hst
      simp at hst
    · simp only [strBackSteps, hstep] at hst
      rw [strBackSteps_of_done (by simp) k] at hst
      simp at hst
      subst hst
      simp only [stepRange, Option.some.injEq, Prod.mk.injEq] at hr
      exact ⟨hr.1 ▸ hbe, hr.2 ▸ hbe⟩
    · simp only [strBackSteps, hstep] at hst
      rcases List.mem_cons.mp hst with h1 | h1
      · subst h1
        simp only [stepRange, Option.some.injEq, Prod.mk.injEq] at hr
        exact ⟨hr.1 ▸ hbe, hr.2 ▸ hbe⟩
      · exact ih _ hwf' st h1 a b hr
    · simp only [strBackSteps, hstep] at hst
      rcases List.mem_cons.mp hst with h1 | h1
      · subst h1
        simp only [stepRange, Option.some.injEq, Prod.mk.injEq] at hr
        exact ⟨hr.1 ▸ hwf'.1, hr.2 ▸ hbe⟩
      · exact ih _ hwf' st h1 a b hr
    · simp only [strBackSteps, hstep] at hst
      rcases List.mem_cons.mp hst with h1 | h1
      · subst h1
        simp only [stepRange, Option.some.injEq, Prod.mk.injEq] at hr
        exact ⟨hr.1 ▸ hwf'.1, hr.2 ▸ hbe⟩
      · exact ih _ hwf' st h1 a b hr
    · simp only [strBackSteps, hstep] at hst
      rw [strBackSteps_of_done (by simp) k] at hst
      simp at hst
      subst hst
      simp only [stepRange, Option.some.injEq, Prod.mk.injEq] at hr
      exact ⟨hr.1 ▸ hbs, hr.2 ▸ hbe⟩

theorem strRun_of_done {m : StrSearcher} (h : m.done = true) :
    ∀ n, strRun n m = m := by
  intro n
  induction n with
  | zero => rfl
  | succ k ih => simp only [strRun, strNext_of_done h]; exact ih

theorem strBackRun_of_done {m : StrSearcher} (h : m.done = true) :
    ∀ n, strBackRun n m = m := by
  intro n
  induction n with
  | zero => rfl
  | succ k ih => simp only [strBackRun, strNextBack_of_done h]; exact ih

theorem strRun_reaches_done :
    ∀ (fuel : Nat) (m : StrSearcher), WFf m → m.end_ - m.start + 1 ≤ fuel →
      (strNext (strRun fuel m)).2 = .Done := by
  intro fuel
  induction fuel with
  | zero => intro m _ h; omega
  | succ k ih =>
    intro m hw hfuel
    by_cases hd : m.done = true
    · rw [strRun_of_done hd, strNext_of_done hd]
    have hd' : m.done = false := by simpa using hd
    rcases strNext_cases hw hd' with
      ⟨-, -, hstep⟩ | ⟨-, -, hstep⟩ | ⟨c, -, hlt, hwc, hstep, hwf'⟩ |
      ⟨-, h1, hle, hstep, hwf'⟩ | ⟨c, -, hlt, hwc, hle, hstep, hwf'⟩ |
      ⟨-, hlt, hgt, hstep⟩
    · simp only [strRun, hstep]
      rw [strRun_of_done (by simp) k, strNext_of_done (by simp)]
    · simp only [strRun, hstep]
      rw [strRun_of_done (by simp) k, strNext_of_done (by simp)]
    · simp only [strRun, hstep]
      exact ih _ hwf' (by simp; omega)
    · simp only [strRun, hstep]
      exact ih _ hwf' (by simp; omega)
    · simp only [strRun, hstep]
      exact ih _ hwf' (by simp; omega)
    · simp only [strRun, hstep]
      rw [strRun_of_done (by simp) k, strNext_of_done (by simp)]

theorem strBackRun_reaches_done :
    ∀ (fuel : Nat) (m : StrSearcher), WFb m → m.end_ - m.start + 1 ≤ fuel →
      (strNextBack (strBackRun fuel m)).2 = .Done := by
  intro fuel
  induction fuel with
  | zero => intro m _ h; omega
  | succ k ih =>
    intro m hw hfuel
    by_cases hd : m.done = true
    · rw [strBackRun_of_done hd, strNextBack_of_done hd]
    have hd' : m.done = false := by simpa using hd
    rcases strNextBack_cases hw hd' with
      ⟨-, -, hstep⟩ | ⟨-, -, hstep⟩ | ⟨c, -, hlt, hwc, hwc2, hstep, hwf'⟩ |
      ⟨-, h1, hle, hstep, hwf'⟩ | ⟨c, -, hlt, hwc, hwc2, hle, hstep, hwf'⟩ |
      ⟨-, hlt, hgt, hstep⟩
    · simp only [strBackRun, hstep]
      rw [strBackRun_of_done (by simp) k, strNextBack_of_done (by simp)]
    · simp only [strBackRun, hstep]
      rw [strBackRun_of_done (by simp) k, strNextBack_of_done (by simp)]
    · simp only [strBackRun, hstep]
      exact ih _ hwf' (by simp; omega)
    · simp only [strBackRun, hstep]
      exact ih _ hwf' (by simp; omega)
    · simp only [strBackRun, hstep]
      exact ih _ hwf' (by simp; omega)
    · simp only [strBackRun, hstep]
      rw [strBackRun_of_done (by simp) k, strNextBack_of_done (by simp)]

theorem strNextMatch_iff :
    ∀ (fuel : Nat) (m : StrSearcher), (strNextMatch fuel m).isSome = true ↔
      ∃ a b, SearchStep.Match a b ∈ strSteps fuel m := by
  intro fuel
  induction fuel with
  | zero => intro m; simp [strNextMatch, strSteps]
  | succ k ih =>
    intro m
    rcases hst : strNext m with ⟨m', st⟩
    cases st with
    | Match a b =>
      simp [strNextMatch, strSteps, hst]
      exact ⟨a, b, Or.inl ⟨rfl, rfl⟩⟩
    | Reject a b => simp [strNextMatch, strSteps, hst, ih m']
    | Done => simp [strNextMatch, strSteps, hst]

theorem strNext_done_flag {m m' : StrSearcher} (h : strNext m = (m', .Done)) :
    m'.done = true := by
  by_cases hd : m.done = true
  · rw [strNext_of_done hd] at h
    have := congrArg Prod.fst h
    simp at this
    rw [← this]
    exact hd
  · have hd' : m.done = false := by simpa using hd
    unfold strNext at h
    rw [if_neg (by simp [hd'])] at h
    by_cases he : byteLen m.needle = 0 ∧ m.start ≤ m.end_
    · rw [if_pos he] at h
      have := congrArg Prod.snd h
      simp at this
    · rw [if_neg he] at h
      by_cases hle : m.start + byteLen m.needle ≤ m.end_
      · rw [if_pos hle] at h
        by_cases hwin : strWindowF m = encodeStr m.needle
        · rw [if_pos hwin] at h
          have := congrArg Prod.snd h
          simp at this
        · rw [if_neg hwin] at h
          rcases hAt : charAt m.haystack m.start with _ | c
          · simp only [hAt] at h
            have := congrArg Prod.fst h
            simp at this
            rw [← this]
          · simp only [hAt] at h
            have := congrArg Prod.snd h
            simp at this
      · rw [if_neg hle] at h
        by_cases hlt : m.start < m.end_
        · rw [if_pos hlt] at h
          have := congrArg Prod.snd h
          simp at this
        · rw [if_neg hlt] at h
          have := congrArg Prod.fst h
          simp at this
          rw [← this]

theorem strNextBack_done_flag {m m' : StrSearcher} (h : strNextBack m = (m', .Done)) :
    m'.done = true := by
  by_cases hd : m.done = true
  · rw [strNextBack_of_done hd] at h
    have := congrArg Prod.fst h
    simp at this
    rw [← this]
    exact hd
  · have hd' : m.done = false := by simpa using hd
    unfold strNextBack at h
    rw [if_neg (by simp [hd'])] at h
    by_cases he : byteLen m.needle = 0 ∧ m.start ≤ m.end_
    · rw [if_pos he] at h
      have := congrArg Prod.snd h
      simp at this
    · rw [if_neg he] at h
      by_cases hle : m.start + byteLen m.needle ≤ m.end_
      · rw [if_pos hle] at h
        by_cases hwin : strWindowB m = encodeStr m.needle
        · rw [if_pos hwin] at h
          have := congrArg Prod.snd h
          simp at this
        · rw [if_neg hwin] at h
          rcases hAt : charBefore m.haystack m.end_ with _ | c
          · simp only [hAt] at h
            have := congrArg Prod.fst h
            simp at this
            rw [← this]
          · simp only [hAt] at h
            have := congrArg Prod.snd h
            simp at this
      · rw [if_neg hle] at h
        by_cases hlt : m.start < m.end_
        · rw [if_pos hlt] at h
          have := congrArg Prod.snd h
          simp at this
        · rw [if_neg hlt] at h
          have := congrArg Prod.fst h
          simp at this
          rw [← this]

theorem strRunMix_of_done {m : StrSearcher} (h : m.done = true) :
    ∀ ds, strRunMix ds m = m := by
  intro ds
  induction ds with
  | nil => rfl
  | cons d ds ih =>
    cases d with
    | true => simp only [strRunMix, if_true, strNext_of_done h]; exact ih
    | false => simp only [strRunMix, if_false, strNextBack_of_done h]; exact ih

theorem ceNext_done_inv {s s' : CharEqSearcher} (h : ceNext s = (s', .Done)) :
    s' = s ∧ s.char_indices.chars = [] := by
  obtain ⟨f, hay, ⟨i, chars⟩, ascii⟩ := s
  cases chars with
  | nil =>
    rw [ceNext_nil] at h
    have := congrArg Prod.fst h
    simp at this
    exact ⟨this.symm, rfl⟩
  | cons c cs =>
    rw [ceNext_cons] at h
    have := congrArg Prod.snd h
    cases hfc : f c <;> simp [hfc] at this

theorem ceNextBack_done_inv {s s' : CharEqSearcher} (h : ceNextBack s = (s', .Done)) :
    s' = s ∧ s.char_indices.chars = [] := by
  obtain ⟨f, hay, ⟨i, chars⟩, ascii⟩ := s
  rcases List.eq_nil_or_concat chars with hc | ⟨init, c, hc⟩
  · subst hc
    rw [ceNextBack_nil] at h
    have := congrArg Prod.fst h
    simp at this
    exact ⟨this.symm, rfl⟩
  · subst hc
    rw [List.concat_eq_append, ceNextBack_concat] at h
    have := congrArg Prod.snd h
    cases hfc : f c <;> simp [hfc] at this

theorem ceRunMix_of_nil {s : CharEqSearcher} (h : s.char_indices.chars = []) :
    ∀ ds, ceRunMix ds s = s := by
  have hnext : ceNext s = (s, .Done) := by
    obtain ⟨f, hay, ⟨i, chars⟩, ascii⟩ := s
    simp at h
    subst h
    exact ceNext_nil
  have hback : ceNextBack s = (s, .Done) := by
    obtain ⟨f, hay, ⟨i, chars⟩, ascii⟩ := s
    simp at h
    subst h
    exact ceNextBack_nil
  intro ds
  induction ds with
  | nil => rfl
  | cons d ds ih =>
    cases d with
    | true => simp only [ceRunMix, if_true, hnext]; exact ih
    | false => simp only [ceRunMix, if_false, hback]; exact ih

theorem ceNext_of_nil {s : CharEqSearcher} (h : s.char_indices.chars = []) :
    ceNext s = (s, .Done) := by
  obtain ⟨f, hay, ⟨i, chars⟩, ascii⟩ := s
  simp at h
  subst h
  exact ceNext_nil

theorem ceNextBack_of_nil {s : CharEqSearcher} (h : s.char_indices.chars = []) :
    ceNextBack s = (s, .Done) := by
  obtain ⟨f, hay, ⟨i, chars⟩, ascii⟩ := s
  simp at h
  subst h
  exact ceNextBack_nil

theorem ceRun_chars :
    ∀ (n : Nat) (s : CharEqSearcher),
      (ceRun n s).char_indices.chars = s.char_indices.chars.drop n := by
  intro n
  induction n with
  | zero => intro s; rfl
  | succ k ih =>
    intro s
    obtain ⟨f, hay, ⟨i, chars⟩, ascii⟩ := s
    cases chars with
    | nil => simp only [ceRun, ceNext_nil]; rw [ih]; simp
    | cons c cs => simp only [ceRun, ceNext_cons]; rw [ih]; simp

theorem ceBackRun_chars_length :
    ∀ (n : Nat) (s : CharEqSearcher),
      (ceBackRun n s).char_indices.chars.length = s.char_indices.chars.length - n := by
  intro n
  induction n with
  | zero => intro s; rfl
  | succ k ih =>
    intro s
    obtain ⟨f, hay, ⟨i, chars⟩, ascii⟩ := s
    rcases List.eq_nil_or_concat chars with hc | ⟨init, c, hc⟩
    · subst hc
      simp only [ceBackRun, ceNextBack_nil]
      rw [ih]
      simp
    · subst hc
      rw [List.concat_eq_append]
      simp only [ceBackRun, ceNextBack_concat]
      rw [ih]
      simp

theorem stepsRanges_reverse (l : List SearchStep) :
    stepsRanges l.reverse = (stepsRanges l).reverse := by
  simp [stepsRanges, List.filterMap_reverse]

/-- C1 counterexample: for the empty literal needle `""` and haystack `"a"`,
the forward steps are `[Match(0,0), Match(1,1)]`, whose ranges do not tile
`[0, 1)`: the partition property fails for the empty needle. -/
theorem C1_counterexample :
    rangesChain 0 (stepsRanges (strSteps (byteLen ['a'] + 2) (strInto [] ['a'])))
      (byteLen ['a']) = false := by decide

/-- C1 (amended: the partition property holds for every classifier pattern
(single character, character set, predicate) in both directions, and for
every literal pattern with a non-empty needle in both directions; the empty
literal needle is excluded, as its zero-length matches at each boundary do
not tile the haystack).  A backward step sequence partitions `[0, len)` when
read in reverse emission order. -/
theorem C1_partition :
    (∀ (f : Char → Bool) (ascii : Bool) (hay : List Char),
      rangesChain 0 (stepsRanges (ceSteps hay.length (ceInto f ascii hay)))
        (byteLen hay) = true ∧
      rangesChain 0 (stepsRanges (ceBackSteps hay.length (ceInto f ascii hay))).reverse
        (byteLen hay) = true)
    ∧ (∀ needle hay : List Char, needle ≠ [] →
      rangesChain 0 (stepsRanges (strSteps (byteLen hay + 2) (strInto needle hay)))
        (byteLen hay) = true ∧
      rangesChain 0 (stepsRanges (strBackSteps (byteLen hay + 2) (strInto needle hay))).reverse
        (byteLen hay) = true) := by
  constructor
  · intro f ascii hay
    constructor
    · have h := ceSteps_eq_ceMap f hay ascii hay 0 hay.length le_rfl
      have h2 := ceMap_chain f hay 0
      rw [ceInto]
      rw [h]
      simpa using h2
    · have h := ceBackSteps_eq_ceMap f hay ascii hay 0 hay.length le_rfl
      have h2 := ceMap_chain f hay 0
      rw [ceInto]
      rw [h, ← stepsRanges_reverse, List.reverse_reverse]
      simpa using h2
  · intro needle hay hn
    constructor
    · exact strSteps_chain (byteLen hay + 2) (strInto needle hay)
        ⟨⟨[], hay, rfl, rfl⟩, rfl⟩ hn rfl (by simp only [strInto]; omega)
    · exact strBackSteps_chain (byteLen hay + 2) (strInto needle hay)
        ⟨⟨hay, [], by simp [strInto], rfl⟩, rfl⟩ hn rfl (by simp only [strInto]; omega)

/-- C1 witness: the amended theorem applied to the literal needle `"a"` and
haystack `"ab"`. -/
theorem C1_witness :
    rangesChain 0 (stepsRanges (strSteps (byteLen ['a', 'b'] + 2)
      (strInto ['a'] ['a', 'b']))) (byteLen ['a', 'b']) = true ∧
    rangesChain 0 (stepsRanges (strBackSteps (byteLen ['a', 'b'] + 2)
      (strInto ['a'] ['a', 'b']))).reverse (byteLen ['a', 'b']) = true :=
  C1_partition.2 ['a'] ['a', 'b'] (by decide)

/-- C2: every offset `a`, `b` emitted in any `Match(a,b)` or `Reject(a,b)` by
`next()` or `next_back()`, for every pattern (classifier with any matcher, or
literal needle, empty or not) and every haystack, is a UTF-8 character
boundary of the haystack. -/
theorem C2_boundaries :
    (∀ (f : Char → Bool) (ascii : Bool) (hay : List Char) (st : SearchStep) (a b : Nat),
      (st ∈ ceSteps hay.length (ceInto f ascii hay) ∨
        st ∈ ceBackSteps hay.length (ceInto f ascii hay)) →
      stepRange st = some (a, b) → IsBoundary hay a ∧ IsBoundary hay b)
    ∧ (∀ (needle hay : List Char) (st : SearchStep) (a b : Nat),
      (st ∈ strSteps (byteLen hay + 2) (strInto needle hay) ∨
        st ∈ strBackSteps (byteLen hay + 2) (strInto needle hay)) →
      stepRange st = some (a, b) → IsBoundary hay a ∧ IsBoundary hay b) := by
  constructor
  · intro f ascii hay st a b hmem hr
    have hmem' : st ∈ ceMap f 0 hay := by
      rcases hmem with h | h
      · rwa [ceInto, ceSteps_eq_ceMap f hay ascii hay 0 hay.length le_rfl] at h
      · rw [ceInto, ceBackSteps_eq_ceMap f hay ascii hay 0 hay.length le_rfl] at h
        exact List.mem_reverse.mp h
    have := ceMap_bounds f hay [] st a b hmem' hr
    simpa using this
  · intro needle hay st a b hmem hr
    rcases hmem with h | h
    · exact strSteps_bounds (byteLen hay + 2) (strInto needle hay)
        ⟨⟨[], hay, rfl, rfl⟩, rfl⟩ st h a b hr
    · exact strBackSteps_bounds (byteLen hay + 2) (strInto needle hay)
        ⟨⟨hay, [], by simp [strInto], rfl⟩, rfl⟩ st h a b hr

/-- C2 witness: the literal needle `"a"` in haystack `"ab"` emits
`Match(0, 1)`, and 0 and 1 are boundaries of `"ab"`. -/
theorem C2_witness : IsBoundary ['a', 'b'] 0 ∧ IsBoundary ['a', 'b'] 1 :=
  C2_boundaries.2 ['a'] ['a', 'b'] (.Match 0 1) 0 1 (Or.inl (by decide)) rfl

/-- C3 counterexample: for needle `"aaa"` and haystack `"cbaaaaab"`, the
forward search does not yield `[Reject(0,1), Reject(1,2), Match(2,5),
Reject(5,8)]` (the stream the source's doc comment says it "might" produce):
after the match at `[2,5)` the searcher first rejects one character `[5,6)`
and then the short remainder `[6,8)`. -/
theorem C3_counterexample :
    strSteps (byteLen ['c', 'b', 'a', 'a', 'a', 'a', 'a', 'b'] + 2)
      (strInto ['a', 'a', 'a'] ['c', 'b', 'a', 'a', 'a', 'a', 'a', 'b']) ≠
    [.Reject 0 1, .Reject 1 2, .Match 2 5, .Reject 5 8] := by decide

/-- C3 (amended: for the literal needle `"aaa"` and haystack `"cbaaaaab"`,
driving the string searcher forward with `next()` until `Done` yields exactly
`[Reject(0,1), Reject(1,2), Match(2,5), Reject(5,6), Reject(6,8)]` — the
final rejected region is emitted as two fragments, one per the
one-character-skip rule and one as the short-remainder reject). -/
theorem C3_literal_example :
    strSteps (byteLen ['c', 'b', 'a', 'a', 'a', 'a', 'a', 'b'] + 2)
      (strInto ['a', 'a', 'a'] ['c', 'b', 'a', 'a', 'a', 'a', 'a', 'b']) =
    [.Reject 0 1, .Reject 1 2, .Match 2 5, .Reject 5 6, .Reject 6 8] := by decide

/-- C4: with a non-empty needle, when the byte window at the current end of
the unsearched range differs from the needle's bytes, the searcher emits a
`Reject` over exactly the one character decoded at that end and moves that
cursor past that character only; when the remaining window is non-empty but
shorter than the needle, it emits one final `Reject(start, end)` and sets
`done` — in both directions. -/
theorem C4_reject_steps :
    (∀ (m : StrSearcher) (c : Char), m.done = false → m.needle ≠ [] →
      m.start + byteLen m.needle ≤ m.end_ → strWindowF m ≠ encodeStr m.needle →
      charAt m.haystack m.start = some c →
      strNext m = ({ m with start := m.start + charWidth c },
        .Reject m.start (m.start + charWidth c)))
    ∧ (∀ (m : StrSearcher) (c : Char), m.done = false → m.needle ≠ [] →
      m.start + byteLen m.needle ≤ m.end_ → strWindowB m ≠ encodeStr m.needle →
      charBefore m.haystack m.end_ = some c →
      strNextBack m = ({ m with end_ := m.end_ - charWidth c },
        .Reject (m.end_ - charWidth c) m.end_))
    ∧ (∀ m : StrSearcher, m.done = false → m.needle ≠ [] →
      m.end_ < m.start + byteLen m.needle → m.start < m.end_ →
      strNext m = ({ m with done := true }, .Reject m.start m.end_))
    ∧ (∀ m : StrSearcher, m.done = false → m.needle ≠ [] →
      m.end_ < m.start + byteLen m.needle → m.start < m.end_ →
      strNextBack m = ({ m with done := true }, .Reject m.start m.end_)) :=
  ⟨fun _ _ hd hn hle hw hAt => strNext_skip hd hn hle hw hAt,
   fun _ _ hd hn hle hw hAt => strNextBack_skip hd hn hle hw hAt,
   fun _ hd hn hgt hlt => strNext_short hd hn hgt hlt,
   fun _ hd hn hgt hlt => strNextBack_short hd hn hgt hlt⟩

/-- C4 witness: the first step of needle `"aaa"` in `"cbaaaaab"` rejects
exactly the one character `'c'`, i.e. the range `[0, 1)`. -/
theorem C4_witness :
    strNext (strInto ['a', 'a', 'a'] ['c', 'b', 'a', 'a', 'a', 'a', 'a', 'b']) =
      ({ strInto ['a', 'a', 'a'] ['c', 'b', 'a', 'a', 'a', 'a', 'a', 'b'] with
          start := 0 + charWidth 'c' },
       .Reject 0 (0 + charWidth 'c')) :=
  C4_reject_steps.1 _ 'c' rfl (by decide) (by decide) (by decide) (by decide)

/-- C5: for the empty needle `""` and haystack `"ab"`, forward search yields
exactly the three zero-length matches `Match(0,0), Match(1,1), Match(2,2)`,
and the fourth call returns `Done`. -/
theorem C5_empty_needle :
    strSteps (byteLen ['a', 'b'] + 2) (strInto [] ['a', 'b']) =
      [.Match 0 0, .Match 1 1, .Match 2 2] ∧
    (strNext (strRun 3 (strInto [] ['a', 'b']))).2 = .Done := by decide

/-- C6: needle `"aa"` in haystack `"aaa"`: forward search yields
`[Match(0,2), Reject(2,3)]`, backward search yields `[Match(1,3),
Reject(0,1)]`; the two partitions differ. -/
theorem C6_asymmetry :
    strSteps (byteLen ['a', 'a', 'a'] + 2) (strInto ['a', 'a'] ['a', 'a', 'a']) =
      [.Match 0 2, .Reject 2 3] ∧
    strBackSteps (byteLen ['a', 'a', 'a'] + 2) (strInto ['a', 'a'] ['a', 'a', 'a']) =
      [.Match 1 3, .Reject 0 1] ∧
    stepsRanges (strSteps (byteLen ['a', 'a', 'a'] + 2)
        (strInto ['a', 'a'] ['a', 'a', 'a'])) ≠
      stepsRanges (strBackSteps (byteLen ['a', 'a', 'a'] + 2)
        (strInto ['a', 'a'] ['a', 'a', 'a'])) := by decide

/-- C7: for every character classifier (single character, character set, or
predicate, all modelled by their `matches` function) and every haystack, the
backward step sequence, reversed, equals the forward step sequence
element-for-element. -/
theorem C7_double_ended :
    ∀ (f : Char → Bool) (ascii : Bool) (hay : List Char),
      (ceBackSteps hay.length (ceInto f ascii hay)).reverse =
        ceSteps hay.length (ceInto f ascii hay) := by
  intro f ascii hay
  rw [ceInto, ceSteps_eq_ceMap f hay ascii hay 0 hay.length le_rfl,
    ceBackSteps_eq_ceMap f hay ascii hay 0 hay.length le_rfl, List.reverse_reverse]

/-- C8: `is_contained_in` is true iff some forward step is a `Match`;
`is_prefix_of` is true iff the very first `next()` is `Match(0, k)`;
`is_suffix_of` is true iff the very first `next_back()` is `Match(k, len)` —
for literal patterns and for classifier patterns. -/
theorem C8_derived_queries :
    (∀ needle hay : List Char,
      strIsContainedIn needle hay = true ↔
        ∃ a b, SearchStep.Match a b ∈ strSteps (byteLen hay + 2) (strInto needle hay))
    ∧ (∀ needle hay : List Char,
      strIsPrefixOf needle hay = true ↔
        ∃ k, (strNext (strInto needle hay)).2 = .Match 0 k)
    ∧ (∀ needle hay : List Char,
      strIsSuffixOf needle hay = true ↔
        ∃ k, (strNextBack (strInto needle hay)).2 = .Match k (byteLen hay))
    ∧ (∀ (f : Char → Bool) (ascii : Bool) (hay : List Char),
      ceIsContainedIn f ascii hay = true ↔
        ∃ a b, SearchStep.Match a b ∈ ceSteps (hay.length + 1) (ceInto f ascii hay))
    ∧ (∀ (f : Char → Bool) (ascii : Bool) (hay : List Char),
      ceIsPrefixOf f ascii hay = true ↔
        ∃ k, (ceNext (ceInto f ascii hay)).2 = .Match 0 k)
    ∧ (∀ (f : Char → Bool) (ascii : Bool) (hay : List Char),
      ceIsSuffixOf f ascii hay = true ↔
        ∃ k, (ceNextBack (ceInto f ascii hay)).2 = .Match k (byteLen hay)) := by
  refine ⟨?_, ?_, ?_, ?_, ?_, ?_⟩
  · intro needle hay
    rw [strIsContainedIn]
    exact strNextMatch_iff (byteLen hay + 2) (strInto needle hay)
  · intro needle hay
    rw [strIsPrefixOf]
    cases hst : (strNext (strInto needle hay)).2 with
    | Match a b =>
      cases a with
      | zero => simp
      | succ n => simp
    | Reject a b => simp
    | Done => simp
  · intro needle hay
    rw [strIsSuffixOf]
    cases hst : (strNextBack (strInto needle hay)).2 with
    | Match a b =>
      simp only [beq_iff_eq, SearchStep.Match.injEq]
      constructor
      · intro h; exact ⟨a, rfl, h⟩
      · intro ⟨k, hk⟩; exact hk.2
    | Reject a b => simp
    | Done => simp
  · intro f ascii hay
    rw [ceIsContainedIn]
    exact ceNextMatch_iff (hay.length + 1) (ceInto f ascii hay)
  · intro f ascii hay
    rw [ceIsPrefixOf]
    cases hst : (ceNext (ceInto f ascii hay)).2 with
    | Match a b =>
      cases a with
      | zero => simp
      | succ n => simp
    | Reject a b => simp
    | Done => simp
  · intro f ascii hay
    rw [ceIsSuffixOf]
    cases hst : (ceNextBack (ceInto f ascii hay)).2 with
    | Match a b =>
      simp only [beq_iff_eq, SearchStep.Match.injEq]
      constructor
      · intro h; exact ⟨a, rfl, h⟩
      · intro ⟨k, hk⟩; exact hk.2
    | Reject a b => simp
    | Done => simp

/-- C9: every search terminates: from a fresh searcher, after at most
`len + 1` forward (or backward) calls the next call returns `Done` — for
literal patterns (any needle, including the empty one) and for classifier
patterns. -/
theorem C9_termination :
    (∀ needle hay : List Char,
      (strNext (strRun (byteLen hay + 1) (strInto needle hay))).2 = .Done ∧
      (strNextBack (strBackRun (byteLen hay + 1) (strInto needle hay))).2 = .Done)
    ∧ (∀ (f : Char → Bool) (ascii : Bool) (hay : List Char),
      (ceNext (ceRun hay.length (ceInto f ascii hay))).2 = .Done ∧
      (ceNextBack (ceBackRun hay.length (ceInto f ascii hay))).2 = .Done) := by
  constructor
  · intro needle hay
    constructor
    · exact strRun_reaches_done (byteLen hay + 1) (strInto needle hay)
        ⟨⟨[], hay, rfl, rfl⟩, rfl⟩ (by simp only [strInto]; omega)
    · exact strBackRun_reaches_done (byteLen hay + 1) (strInto needle hay)
        ⟨⟨hay, [], by simp [strInto], rfl⟩, rfl⟩ (by simp only [strInto]; omega)
  · intro f ascii hay
    constructor
    · have h : (ceRun hay.length (ceInto f ascii hay)).char_indices.chars = [] := by
        rw [ceRun_chars]
        simp [ceInto]
      rw [ceNext_of_nil h]
    · have h : (ceBackRun hay.length (ceInto f ascii hay)).char_indices.chars = [] := by
        apply List.eq_nil_of_length_eq_zero
        rw [ceBackRun_chars_length]
        simp [ceInto]
      rw [ceNextBack_of_nil h]

/-- C10: `Done` is absorbing: once a call to `next()` or `next_back()` has
returned `Done`, every subsequent call in either direction, in any order,
returns `Done` and leaves the searcher state unchanged — for both the
literal and the classifier searcher. -/
theorem C10_done_absorbing :
    (∀ (m m' : StrSearcher),
      (strNext m = (m', .Done) ∨ strNextBack m = (m', .Done)) →
      ∀ ds : List Bool, strRunMix ds m' = m' ∧
        strNext m' = (m', .Done) ∧ strNextBack m' = (m', .Done))
    ∧ (∀ (s s' : CharEqSearcher),
      (ceNext s = (s', .Done) ∨ ceNextBack s = (s', .Done)) →
      ∀ ds : List Bool, ceRunMix ds s' = s' ∧
        ceNext s' = (s', .Done) ∧ ceNextBack s' = (s', .Done)) := by
  constructor
  · intro m m' h ds
    have hd : m'.done = true := by
      rcases h with h | h
      · exact strNext_done_flag h
      · exact strNextBack_done_flag h
    exact ⟨strRunMix_of_done hd ds, strNext_of_done hd, strNextBack_of_done hd⟩
  · intro s s' h ds
    have hc : s'.char_indices.chars = [] := by
      rcases h with h | h
      · obtain ⟨heq, hnil⟩ := ceNext_done_inv h
        rw [heq]; exact hnil
      · obtain ⟨heq, hnil⟩ := ceNextBack_done_inv h
        rw [heq]; exact hnil
    exact ⟨ceRunMix_of_nil hc ds, ceNext_of_nil hc, ceNextBack_of_nil hc⟩

/-- C10 witness: a finished literal searcher (done flag set) stays `Done`
and unchanged under any further mixed calls. -/
theorem C10_witness :
    strRunMix [true, false, true] (⟨['a'], ['b'], 0, 1, true⟩ : StrSearcher) =
        ⟨['a'], ['b'], 0, 1, true⟩ ∧
      strNext (⟨['a'], ['b'], 0, 1, true⟩ : StrSearcher) =
        (⟨['a'], ['b'], 0, 1, true⟩, .Done) ∧
      strNextBack (⟨['a'], ['b'], 0, 1, true⟩ : StrSearcher) =
        (⟨['a'], ['b'], 0, 1, true⟩, .Done) :=
  C10_done_absorbing.1 ⟨['a'], ['b'], 0, 1, true⟩ ⟨['a'], ['b'], 0, 1, true⟩
    (Or.inl rfl) [true, false, true]
